import Mathlib

/-!
Verification development for the nixpkgs FOD reproducibility auditor.

The program (src/main.rs) enumerates attributes of a package tree, discovers
each attribute's transitive requisite closure, deduplicates derivations in a
shared map, classifies fixed-output derivations via a byte-regex on the
derivation file, realizes each FOD twice (realize + verify), and reports the
non-reproducible ones.

The shallow embedding below models the external Nix engine (enumerate,
instantiate, query-requisites, read-derivation, realize, verify-check,
release-root, delete) as an environment of response functions, and the
program's own logic (the discovery loop, the dedup map operations, the FOD
regex, the verification loop, cache pre-seeding and write-back, the final
report and exit codes) as executable Lean functions translated from the
source.  The shared HashMap is modelled as an association list with the
same insert-or-overwrite semantics as HashMap::insert / HashMap::extend;
the rayon parallel loops are modelled by a serialized execution in list
order (one admissible interleaving); a panic (an .expect hit) is modelled
as an aborted run.
-/

/-- Key lookup in the association-list model of HashMap: does a key occur. -/
def containsKey {κ ν : Type} [DecidableEq κ] : List (κ × ν) → κ → Bool
  | [], _ => false
  | p :: rest, k => if p.1 = k then true else containsKey rest k

/-- Value lookup in the association-list model of HashMap. -/
def lookupA {κ ν : Type} [DecidableEq κ] : List (κ × ν) → κ → Option ν
  | [], _ => none
  | p :: rest, k => if p.1 = k then some p.2 else lookupA rest k

/-- HashMap::insert semantics: replace the value in place if the key is
present, otherwise append the new binding. -/
def insertOv {κ ν : Type} [DecidableEq κ] : List (κ × ν) → κ → ν → List (κ × ν)
  | [], k, v => [(k, v)]
  | p :: rest, k, v => if p.1 = k then (k, v) :: rest else p :: insertOv rest k v

/-- HashMap::extend with (req, attr) pairs all carrying the same attribute,
as done by the par_extend call in check_all_fods (overwrites existing keys). -/
def extendWith (m : List (String × String)) (reqs : List String) (attr : String) :
    List (String × String) :=
  reqs.foldl (fun acc r => insertOv acc r attr) m

/-- HashMap::extend with arbitrary pairs, as done when pre-seeding the
derivation map from the cache file. -/
def extendPairs (m : List (String × String)) (ps : List (String × String)) :
    List (String × String) :=
  ps.foldl (fun acc kv => insertOv acc kv.1 kv.2) m

/-- The double-quote character, written via its code point so it can appear
inside character-level parsing code. -/
def qc : Char := Char.ofNat 34

/-- Byte-mode whitespace as matched by the regex class in is_fod:
space, tab, newline, vertical tab, form feed, carriage return. -/
def isWsChar (c : Char) : Bool :=
  c == ' ' || c == Char.ofNat 9 || c == Char.ofNat 10 ||
  c == Char.ofNat 11 || c == Char.ofNat 12 || c == Char.ofNat 13

/-- Skip a (possibly empty) run of regex whitespace. -/
def skipWs (s : List Char) : List Char := s.dropWhile isWsChar

/-- Consume one expected literal character. -/
def expectChar (c : Char) : List Char → Option (List Char)
  | d :: rest => if d = c then some rest else none
  | [] => none

/-- Consume an expected literal character sequence. -/
def expectStr : List Char → List Char → Option (List Char)
  | [], s => some s
  | c :: cs, d :: ds => if d = c then expectStr cs ds else none
  | _ :: _, [] => none

/-- Consume a double-quoted string with a non-empty body of non-quote
characters, exactly the regex piece reading a quote, one or more characters
other than a quote, then a quote. -/
def parseQuoted (s : List Char) : Option (List Char) :=
  match s with
  | c :: rest =>
    if c = qc then
      let content := rest.takeWhile (fun ch => ch != qc)
      let rest1 := rest.dropWhile (fun ch => ch != qc)
      if content.isEmpty then none
      else
        match rest1 with
        | c2 :: rest2 => if c2 = qc then some rest2 else none
        | [] => none
    else none
  | [] => none

/-- The literal prefix of the is_fod regex before the output list. -/
def deriveLit : List Char := 'D' :: 'e' :: 'r' :: 'i' :: 'v' :: 'e' :: '(' :: []

/-- The output-tuple part of the is_fod regex: an opening parenthesis and
four non-empty quoted strings separated by commas, closed by a parenthesis,
with optional whitespace between tokens. -/
def fodTupleMatch (s : List Char) : Option (List Char) := do
  let s1 ← expectChar '(' (skipWs s)
  let s2 ← parseQuoted (skipWs s1)
  let s3 ← expectChar ',' (skipWs s2)
  let s4 ← parseQuoted (skipWs s3)
  let s5 ← expectChar ',' (skipWs s4)
  let s6 ← parseQuoted (skipWs s5)
  let s7 ← expectChar ',' (skipWs s6)
  let s8 ← parseQuoted (skipWs s7)
  expectChar ')' (skipWs s8)

/-- The anchored is_fod regex over the bytes of the derivation file:
Derive, an opening parenthesis, a bracket, then the first output tuple with
four non-empty quoted fields.  Anchored at the start of the text (the regex
uses a caret without multi-line mode). -/
def fodMatch (s : List Char) : Option (List Char) := do
  let s1 ← expectStr deriveLit s
  let s2 ← expectChar '[' (skipWs s1)
  fodTupleMatch s2

/-- is_fod on the contents of the derivation file: whether the anchored
regex matches. -/
def isFodText (s : List Char) : Bool := (fodMatch s).isSome

/-- One declared output of a derivation in the on-disk ATerm format:
name, store path, hash algorithm, hash.  A non-fixed-output entry has empty
hash algorithm and hash fields. -/
structure DrvOutput where
  name : String
  path : String
  hashAlgo : String
  hash : String
deriving DecidableEq

/-- A derivation file, abstracted to its output list plus the remaining text
after the output list (input derivations, sources, builder, and so on). -/
structure Drv where
  outputs : List DrvOutput
  rest : String
deriving DecidableEq

/-- A quoted field in the rendered ATerm text, with an explicit continuation. -/
def quoted (s : String) (rest : List Char) : List Char :=
  qc :: (s.data ++ (qc :: rest))

/-- Render one output tuple of the ATerm text, with continuation. -/
def renderOutputL (o : DrvOutput) (rest : List Char) : List Char :=
  '(' :: quoted o.name (',' :: quoted o.path (',' :: quoted o.hashAlgo
    (',' :: quoted o.hash (')' :: rest))))

/-- Render the tail of a comma-separated output list, with continuation. -/
def renderMoreL : List DrvOutput → List Char → List Char
  | [], rest => rest
  | o :: os, rest => ',' :: renderOutputL o (renderMoreL os rest)

/-- Render a comma-separated output list, with continuation. -/
def renderOutputsL : List DrvOutput → List Char → List Char
  | [], rest => rest
  | o :: os, rest => renderOutputL o (renderMoreL os rest)

/-- Render a derivation file in the on-disk ATerm shape:
Derive, parenthesis, bracket, the comma-separated output tuples, closing
bracket, comma, remaining text. -/
def renderDrv (d : Drv) : List Char :=
  deriveLit ++ '[' :: renderOutputsL d.outputs (']' :: ',' :: d.rest.data)

/-- Number of outputs that declare a content hash (non-empty hash field). -/
def countContentHashes (d : Drv) : Nat :=
  d.outputs.countP (fun o => !(o.hash == ""))

/-- The property the spec ascribes to the classifier checked against the
first output tuple: all four fields of the first listed output are
non-empty (in particular it declares a hash algorithm and a hash). -/
def headOutputOk (d : Drv) : Prop :=
  match d.outputs with
  | [] => False
  | o :: _ => o.name ≠ "" ∧ o.path ≠ "" ∧ o.hashAlgo ≠ "" ∧ o.hash ≠ ""

/-- Well-formedness of the first output tuple: none of its fields contains
a double quote (true of every real store path, output name and hash). -/
def headQuoteFree (d : Drv) : Prop :=
  match d.outputs with
  | [] => True
  | o :: _ => qc ∉ o.name.data ∧ qc ∉ o.path.data ∧
      qc ∉ o.hashAlgo.data ∧ qc ∉ o.hash.data

/-- The fatal, run-wide error classes of check_all_fods: failure to read or
deserialize the cache file, failure of attribute enumeration, failure to
serialize or write the cache file. -/
inductive FatalErr where
  | cacheLoadErr : FatalErr
  | enumerateErr : FatalErr
  | cacheStoreErr : FatalErr
deriving DecidableEq

/-- Observable events of a run: the progress and error lines the program
prints, plus the root-release, root-delete and requisite-query operations it
invokes on the store. -/
inductive Ev where
  | generating : String → Ev
  | instantiating : String → Ev
  | gettingReqs : String → Ev
  | ignoringDup : String → Ev
  | evalFailed : String → Ev
  | releaseRoot : String → Ev
  | releaseFailed : String → Ev
  | reinstFailed : String → String → Ev
  | fodCheckFailed : String → Ev
  | realising : String → Ev
  | realiseFailed : String → String → Ev
  | deleteRoot : String → Ev
  | deleteFailed : String → String → Ev
  | report : String → String → Ev
  | fatalErr : FatalErr → Ev
deriving DecidableEq

/-- Which output stream an event's line goes to. -/
inductive Chan where
  | stdout : Chan
  | stderr : Chan
deriving DecidableEq

/-- The messages of check_all_fods and main, keyed by the causing error. -/
def fatalMsg : FatalErr → String
  | FatalErr.cacheLoadErr => "Reading or deserializing the derivation cache"
  | FatalErr.enumerateErr => "Nix process failed, see above output"
  | FatalErr.cacheStoreErr => "Serializing or writing the derivation cache"

/-- Rendering of an event as the exact line printed by the program, with its
stream; pure store operations print nothing. -/
def renderEv : Ev → Option (Chan × String)
  | Ev.generating p => some (Chan.stdout, "Generating attrs to check in " ++ p)
  | Ev.instantiating a => some (Chan.stdout, "Instantiating " ++ a)
  | Ev.gettingReqs d => some (Chan.stdout, "Getting requisites for " ++ d)
  | Ev.ignoringDup d => some (Chan.stdout, "Ignoring duplicate derivation " ++ d)
  | Ev.evalFailed a => some (Chan.stderr, "Evaluation for " ++ a ++ " failed")
  | Ev.releaseRoot _ => none
  | Ev.releaseFailed a =>
      some (Chan.stderr, "Failed to release derivation root for " ++ a ++ ", ignoring")
  | Ev.reinstFailed a d =>
      some (Chan.stderr, "Error re-instantiating derivation from " ++ a ++ " at " ++ d)
  | Ev.fodCheckFailed d =>
      some (Chan.stderr, "Error checking whether derivation at " ++ d ++ " is a FOD, assuming not")
  | Ev.realising d => some (Chan.stdout, "Realising " ++ d)
  | Ev.realiseFailed a d =>
      some (Chan.stderr, "Error realising derivation from " ++ a ++ " at " ++ d)
  | Ev.deleteRoot _ => none
  | Ev.deleteFailed d p =>
      some (Chan.stderr, "Error removing root and output path from " ++ d ++ " at " ++ p)
  | Ev.report a d =>
      some (Chan.stdout, "FOD from " ++ a ++ " at " ++ d ++ " is not reproducible")
  | Ev.fatalErr e =>
      some (Chan.stderr, "Erroring reproducing all FODs: " ++ fatalMsg e)

/-- The external world as seen by one run: the responses of the Nix engine
and the filesystem.  instantiate and requisites return none on failure;
drvContents is the byte content of a derivation file (none if unreadable);
realise returns the realized output path; check is the verdict of the
verifying second realization (true iff the rebuilt output is byte-identical);
cacheVar is the value of NIXPKGS_FOD_REPORTS_DRV_CACHE (empty if unset);
cacheLoad is the parsed content of the cache file (none on a read or
deserialization error); cacheStoreOk tells whether serializing and writing
the cache back succeeds. -/
structure Env where
  attrsResult : Option (List String)
  instantiate : String → Option String
  requisites : String → Option (List String)
  drvContents : String → Option (List Char)
  realise : String → Option String
  check : String → Bool
  releaseOk : String → Bool
  deleteOk : String → Bool
  drvExists : String → Bool
  cacheVar : String
  cacheFileExists : Bool
  cacheLoad : Option (List (String × String))
  cacheStoreOk : Bool

/-- is_fod as called during verification: read the derivation file and run
the anchored regex; none models the Err case (unreadable file). -/
def is_fod (env : Env) (drv : String) : Option Bool :=
  (env.drvContents drv).map isFodText

/-- Result of check_all_fods: the collected FodResults, the final
derivation-to-attribute map, the event trace, and the cache content written
back at the end of discovery (none when caching is off). -/
structure RunOut where
  fods : List ((String × String) × Bool)
  drvs : List (String × String)
  events : List Ev
  cacheWritten : Option (List (String × String))
deriving DecidableEq

/-- Outcome of check_all_fods: a panic (an .expect hit, propagated by rayon
and aborting the process), a fatal error returned as Err (exit code 1 in
main), or normal completion. -/
inductive RunResult (α : Type) where
  | panicked : RunResult α
  | fatal : FatalErr → List Ev → RunResult α
  | ok : α → RunResult α
deriving DecidableEq

/-- State of the discovery phase: the shared derivation map and the events
so far. -/
structure DiscState where
  drvs : List (String × String)
  events : List Ev
deriving DecidableEq

/-- The release call at the end of a discovery task and after a successful
verification: the root-release operation, plus the failure line when
remove_file fails. -/
def releaseEvents (env : Env) (attr : String) : List Ev :=
  Ev.releaseRoot attr :: (if env.releaseOk attr then [] else [Ev.releaseFailed attr])

/-- One iteration of the discovery loop for one attribute: print the
progress line, instantiate; on success query requisites unless the top
derivation is already in the shared map (the duplicate check); a requisites
failure hits the .expect and panics (none); on evaluation failure log and
contribute nothing; finally release the attribute root and merge the
requisites into the shared map via extend, each requisite keyed to this
attribute, overwriting existing entries. -/
def discoverAttr (env : Env) (s : DiscState) (attr : String) : Option DiscState :=
  match env.instantiate attr with
  | some drv =>
    if containsKey s.drvs drv then
      some ⟨extendWith s.drvs [] attr,
        s.events ++ [Ev.instantiating attr, Ev.ignoringDup drv] ++ releaseEvents env attr⟩
    else
      match env.requisites drv with
      | none => none
      | some reqs =>
        some ⟨extendWith s.drvs reqs attr,
          s.events ++ [Ev.instantiating attr, Ev.gettingReqs drv] ++ releaseEvents env attr⟩
  | none =>
    some ⟨extendWith s.drvs [] attr,
      s.events ++ [Ev.instantiating attr, Ev.evalFailed attr] ++ releaseEvents env attr⟩

/-- The discovery loop over all attributes (the rayon for_each serialized in
list order); none when some iteration panicked. -/
def discoverAll (env : Env) (attrs : List String) (s : DiscState) : Option DiscState :=
  match attrs with
  | [] => some s
  | a :: rest =>
    match discoverAttr env s a with
    | none => none
    | some s1 => discoverAll env rest s1

/-- State of the verification phase: the FodResult map and the events so far. -/
structure VerState where
  fods : List ((String × String) × Bool)
  events : List Ev
deriving DecidableEq

/-- The re-instantiation attempted when the derivation file no longer
exists; only its failure is observable as a line. -/
def reinstEvents (env : Env) (drv attr : String) : List Ev :=
  if env.drvExists drv then []
  else
    match env.instantiate attr with
    | some _ => []
    | none => [Ev.reinstFailed attr drv]

/-- The delete call after a successful verification: the delete operation on
the derivation root (removing the root and its realized output), plus the
failure line when it fails. -/
def deleteEvents (env : Env) (drv path : String) : List Ev :=
  Ev.deleteRoot drv :: (if env.deleteOk drv then [] else [Ev.deleteFailed drv path])

/-- One iteration of the verification loop for one (derivation, attribute)
entry of the shared map: re-instantiate if the file vanished, classify with
is_fod (an error is logged and treated as not a FOD), and for a FOD realize
it; on success record the verdict of the verifying second realization in the
FodResult map, then release the attribute root and delete the derivation
root regardless of the verdict; a realization failure is logged and skipped. -/
def verifyStep (env : Env) (s : VerState) (e : String × String) : VerState :=
  match is_fod env e.1 with
  | none => ⟨s.fods, (s.events ++ reinstEvents env e.1 e.2) ++ [Ev.fodCheckFailed e.1]⟩
  | some false => ⟨s.fods, s.events ++ reinstEvents env e.1 e.2⟩
  | some true =>
    match env.realise e.1 with
    | some path =>
      ⟨insertOv s.fods (e.2, e.1) (env.check e.1),
        ((s.events ++ reinstEvents env e.1 e.2) ++ [Ev.realising e.1]) ++
          releaseEvents env e.2 ++ deleteEvents env e.1 path⟩
    | none =>
      ⟨s.fods, ((s.events ++ reinstEvents env e.1 e.2) ++ [Ev.realising e.1]) ++
        [Ev.realiseFailed e.2 e.1]⟩

/-- The verification loop over all entries of the shared map (the rayon
for_each serialized in map order). -/
def verifyAll (env : Env) (entries : List (String × String)) (s : VerState) : VerState :=
  match entries with
  | [] => s
  | e :: rest => verifyAll env rest (verifyStep env s e)

/-- The tail of check_all_fods after cache pre-seeding: print the generating
line, enumerate attributes (fatal on failure), run discovery (propagating a
panic), write the cache back when caching is on (fatal on failure), then run
verification and return the FodResult map. -/
def checkRest (env : Env) (p : String) (drvs0 : List (String × String)) : RunResult RunOut :=
  match env.attrsResult with
  | none => RunResult.fatal FatalErr.enumerateErr [Ev.generating p]
  | some attrs =>
    match discoverAll env attrs ⟨drvs0, [Ev.generating p]⟩ with
    | none => RunResult.panicked
    | some s =>
      if env.cacheVar ≠ "" ∧ env.cacheStoreOk = false then
        RunResult.fatal FatalErr.cacheStoreErr s.events
      else
        RunResult.ok ⟨(verifyAll env s.drvs ⟨[], s.events⟩).fods, s.drvs,
          (verifyAll env s.drvs ⟨[], s.events⟩).events,
          if env.cacheVar ≠ "" then some s.drvs else none⟩

/-- check_all_fods: when the cache variable names an existing file, read and
deserialize it (fatal on failure) and pre-seed the shared derivation map
with its pairs, then run discovery, cache write-back and verification. -/
def check_all_fods (env : Env) (p : String) : RunResult RunOut :=
  if env.cacheVar ≠ "" ∧ env.cacheFileExists = true then
    match env.cacheLoad with
    | none => RunResult.fatal FatalErr.cacheLoadErr []
    | some m => checkRest env p (extendPairs [] m)
  else checkRest env p []

/-- The final report: one line per FodResult with a false verdict, in map
order. -/
def reportEvents (fods : List ((String × String) × Bool)) : List Ev :=
  fods.filterMap (fun e => if e.2 then none else some (Ev.report e.1.1 e.1.2))

/-- main: index the argument vector at position 1 (a missing positional
argument is an out-of-bounds panic, modelled as none), run check_all_fods,
and either print the report and exit 0, or print the error and exit 1.
The result is the exit code together with the full event trace. -/
def main_run (argv : List String) (env : Env) : Option (Nat × List Ev) :=
  match argv.get? 1 with
  | none => none
  | some p =>
    match check_all_fods env p with
    | RunResult.panicked => none
    | RunResult.fatal e evs => some (1, evs ++ [Ev.fatalErr e])
    | RunResult.ok out => some (0, out.events ++ reportEvents out.fods)

/-- Occurrences of one event in a trace. -/
def countEv (e : Ev) (l : List Ev) : Nat :=
  l.countP (fun x => decide (x = e))

/-- The FodResult map of a completed run (empty on abort). -/
def fodsOf (r : RunResult RunOut) : List ((String × String) × Bool) :=
  match r with
  | RunResult.ok out => out.fods
  | _ => []

/-- Lookup in the derivation map of a partial discovery run. -/
def discDrvsOf (r : Option DiscState) (d : String) : Option String :=
  match r with
  | some s => lookupA s.drvs d
  | none => none

/-- Lookup in the cache content written back by a completed run. -/
def cacheLookup (r : RunResult RunOut) (k : String) : Option String :=
  match r with
  | RunResult.ok out =>
    match out.cacheWritten with
    | some m => lookupA m k
    | none => none
  | _ => none

/-- A baseline environment: empty attribute list, every engine call failing
or trivial, caching off. -/
def baseEnv : Env where
  attrsResult := some []
  instantiate := fun _ => none
  requisites := fun _ => none
  drvContents := fun _ => none
  realise := fun _ => none
  check := fun _ => true
  releaseOk := fun _ => true
  deleteOk := fun _ => true
  drvExists := fun _ => true
  cacheVar := ""
  cacheFileExists := false
  cacheLoad := none
  cacheStoreOk := true

/-- The rendered text of a one-output fixed-output derivation, used as
concrete derivation file content. -/
def fodText1 : List Char :=
  renderDrv ⟨[⟨"out", "p", "sha256", "h"⟩], ""⟩

/-- Environment for the dedup counterexample: two attributes whose top
derivations differ but whose requisite closures share the derivation d. -/
def env1 : Env :=
  { baseEnv with
    attrsResult := some ["a", "b"]
    instantiate := fun a => if a = "a" then some "da" else if a = "b" then some "db" else none
    requisites := fun d =>
      if d = "da" then some ["da", "d"] else if d = "db" then some ["db", "d"] else none }

/-- Environment for the requisite-failure counterexample: instantiation
succeeds but every requisites query fails. -/
def env2 : Env :=
  { baseEnv with
    attrsResult := some ["a", "b"]
    instantiate := fun a => if a = "a" then some "da" else some "db"
    requisites := fun _ => none }

/-- Environment for the cache counterexample: the cache pre-seeds d as owned
by attribute a, and the single attribute b rediscovers d as a requisite. -/
def env3 : Env :=
  { baseEnv with
    attrsResult := some ["b"]
    instantiate := fun a => if a = "b" then some "db" else none
    requisites := fun d => if d = "db" then some ["db", "d"] else none
    cacheVar := "cachefile"
    cacheFileExists := true
    cacheLoad := some [("d", "a")] }

/-- Environment for the report-order counterexample: two attributes with
distinct FOD derivations, both non-reproducible. -/
def env6a : Env :=
  { baseEnv with
    attrsResult := some ["a", "b"]
    instantiate := fun a => if a = "a" then some "da" else if a = "b" then some "db" else none
    requisites := fun d => if d = "da" then some ["da"] else if d = "db" then some ["db"] else none
    drvContents := fun _ => some fodText1
    realise := fun _ => some "out"
    check := fun _ => false }

/-- The same world as env6a with the attributes enumerated in the other
order (a different interleaving of the parallel discovery). -/
def env6b : Env :=
  { env6a with attrsResult := some ["b", "a"] }

/-- Environment with enumeration failing, for the exit-code witness. -/
def envEnumFail : Env :=
  { baseEnv with attrsResult := none }

/-- The completed-run output of the baseline environment. -/
def outEmpty (p : String) : RunOut :=
  ⟨[], [], [Ev.generating p], none⟩

/-- The completed-run output of env3: no FodResults (the derivation files
are unreadable, so classification fails and is logged), the derivation map
with d re-owned by b, and the cache written back with the overwritten owner. -/
def out3 : RunOut :=
  ⟨[],
   [("d", "b"), ("db", "b")],
   [Ev.generating "p", Ev.instantiating "b", Ev.gettingReqs "db", Ev.releaseRoot "b",
    Ev.fodCheckFailed "d", Ev.fodCheckFailed "db"],
   some [("d", "b"), ("db", "b")]⟩

/-- A two-output derivation whose only content hash sits on the second
output: it declares exactly one content hash, yet the anchored regex only
inspects the first tuple. -/
def dex5 : Drv :=
  ⟨[⟨"dev", "p", "", ""⟩, ⟨"out", "q", "sha256", "h"⟩], "x"⟩

/-- A classic single fixed-output derivation. -/
def dex5b : Drv :=
  ⟨[⟨"out", "p", "sha256", "h"⟩], "r"⟩

/-- The completed-run output of env6a: both derivations realized and
verified non-reproducible, the derivation map in discovery order, no cache. -/
def out6a : RunOut :=
  ⟨[(("a", "da"), false), (("b", "db"), false)],
   [("da", "a"), ("db", "b")],
   [Ev.generating "p", Ev.instantiating "a", Ev.gettingReqs "da", Ev.releaseRoot "a",
    Ev.instantiating "b", Ev.gettingReqs "db", Ev.releaseRoot "b",
    Ev.realising "da", Ev.releaseRoot "a", Ev.deleteRoot "da",
    Ev.realising "db", Ev.releaseRoot "b", Ev.deleteRoot "db"],
   none⟩

theorem containsKey_true_iff {κ ν : Type} [DecidableEq κ] (m : List (κ × ν)) (k : κ) :
    containsKey m k = true ↔ ∃ p ∈ m, p.1 = k := by
  induction m with
  | nil => simp [containsKey]
  | cons p rest ih =>
    by_cases h : p.1 = k <;> simp [containsKey, h, ih]

theorem containsKey_false_iff {κ ν : Type} [DecidableEq κ] (m : List (κ × ν)) (k : κ) :
    containsKey m k = false ↔ ∀ p ∈ m, p.1 ≠ k := by
  induction m with
  | nil => simp [containsKey]
  | cons p rest ih =>
    by_cases h : p.1 = k <;> simp [containsKey, h, ih]

theorem lookupA_insertOv_self {κ ν : Type} [DecidableEq κ] (m : List (κ × ν)) (k : κ) (v : ν) :
    lookupA (insertOv m k v) k = some v := by
  induction m with
  | nil => simp [insertOv, lookupA]
  | cons p rest ih =>
    by_cases h : p.1 = k <;> simp [insertOv, lookupA, h, ih]

theorem lookupA_insertOv_ne {κ ν : Type} [DecidableEq κ] (m : List (κ × ν)) (k d : κ) (v : ν)
    (h : d ≠ k) : lookupA (insertOv m k v) d = lookupA m d := by
  have hk : k ≠ d := Ne.symm h
  induction m with
  | nil => simp [insertOv, lookupA, hk]
  | cons p rest ih =>
    by_cases hp : p.1 = k
    · simp [insertOv, lookupA, hp, hk]
    · by_cases hd : p.1 = d <;> simp [insertOv, lookupA, hp, hd, h, ih]

theorem containsKey_insertOv {κ ν : Type} [DecidableEq κ] (m : List (κ × ν)) (k d : κ) (v : ν) :
    containsKey (insertOv m k v) d = (containsKey m d || decide (d = k)) := by
  induction m with
  | nil => simp [insertOv, containsKey, eq_comm]
  | cons p rest ih =>
    by_cases hp : p.1 = k
    · by_cases hd : k = d
      · simp [insertOv, containsKey, hp, hd, hp.trans hd]
      · have hpd : p.1 ≠ d := hp ▸ hd
        have hdk : ¬(d = k) := fun hh => hd hh.symm
        simp [insertOv, containsKey, hp, hd, hpd, hdk]
    · by_cases hpd : p.1 = d
      · have hdk : ¬(d = k) := fun hh => hp (hpd.trans hh)
        simp [insertOv, containsKey, hp, hpd, hdk, ih]
      · simp [insertOv, containsKey, hp, hpd, ih]

theorem mem_insertOv_self {κ ν : Type} [DecidableEq κ] (m : List (κ × ν)) (k : κ) (v : ν) :
    (k, v) ∈ insertOv m k v := by
  induction m with
  | nil => simp [insertOv]
  | cons p rest ih =>
    by_cases h : p.1 = k <;> simp [insertOv, h, ih]

theorem mem_insertOv_of_ne {κ ν : Type} [DecidableEq κ] {m : List (κ × ν)} {x : κ × ν}
    (k : κ) (v : ν) (hx : x ∈ m) (hne : x.1 ≠ k) : x ∈ insertOv m k v := by
  induction m with
  | nil => simp at hx
  | cons p rest ih =>
    rcases List.mem_cons.mp hx with hx1 | hx2
    · subst hx1
      simp [insertOv, hne]
    · by_cases h : p.1 = k
      · simp only [insertOv, h, if_pos]
        exact List.mem_cons_of_mem _ hx2
      · simp only [insertOv, h, if_neg, not_false_iff]
        exact List.mem_cons_of_mem _ (ih hx2)

theorem mem_insertOv_elim {κ ν : Type} [DecidableEq κ] {m : List (κ × ν)} {x : κ × ν}
    {k : κ} {v : ν} (hx : x ∈ insertOv m k v) : x ∈ m ∨ x = (k, v) := by
  induction m with
  | nil => simpa [insertOv] using hx
  | cons p rest ih =>
    by_cases h : p.1 = k
    · simp only [insertOv, h, if_pos, List.mem_cons] at hx
      rcases hx with hx | hx
      · exact Or.inr hx
      · exact Or.inl (List.mem_cons_of_mem p hx)
    · simp only [insertOv, h, if_neg, not_false_iff, List.mem_cons] at hx
      rcases hx with hx | hx
      · exact Or.inl (by simp [hx])
      · rcases ih hx with h2 | h2
        · exact Or.inl (List.mem_cons_of_mem p h2)
        · exact Or.inr h2

theorem map_fst_insertOv {κ ν : Type} [DecidableEq κ] (m : List (κ × ν)) (k : κ) (v : ν) :
    (insertOv m k v).map Prod.fst =
      if containsKey m k then m.map Prod.fst else m.map Prod.fst ++ [k] := by
  induction m with
  | nil => simp [insertOv, containsKey]
  | cons p rest ih =>
    by_cases h : p.1 = k
    · simp [insertOv, containsKey, h]
    · simp only [insertOv, h, if_neg, not_false_iff, containsKey, List.map_cons, ih]
      by_cases hc : containsKey rest k <;> simp [hc]

theorem nodup_fst_insertOv {κ ν : Type} [DecidableEq κ] (m : List (κ × ν)) (k : κ) (v : ν)
    (h : (m.map Prod.fst).Nodup) : ((insertOv m k v).map Prod.fst).Nodup := by
  rw [map_fst_insertOv]
  by_cases hc : containsKey m k
  · simpa [hc]
  · simp only [hc, if_neg, Bool.false_eq_true, not_false_iff]
    have hk : ∀ p ∈ m, p.1 ≠ k := (containsKey_false_iff m k).mp (by simpa using hc)
    refine List.Nodup.append h (List.nodup_singleton k) ?_
    intro a ha hb
    simp only [List.mem_singleton] at hb
    simp only [List.mem_map] at ha
    rcases ha with ⟨p, hp, rfl⟩
    exact hk p hp hb

theorem extendWith_cons (m : List (String × String)) (r : String) (rs : List String) (a : String) :
    extendWith m (r :: rs) a = extendWith (insertOv m r a) rs a := rfl

theorem extendPairs_cons (m : List (String × String)) (kv : String × String)
    (ps : List (String × String)) :
    extendPairs m (kv :: ps) = extendPairs (insertOv m kv.1 kv.2) ps := rfl

theorem lookupA_extendWith (reqs : List String) (m : List (String × String)) (a d : String) :
    lookupA (extendWith m reqs a) d = if d ∈ reqs then some a else lookupA m d := by
  induction reqs generalizing m with
  | nil => simp [extendWith]
  | cons r rs ih =>
    rw [extendWith_cons, ih]
    by_cases hd : d ∈ rs
    · simp [hd, List.mem_cons]
    · by_cases hr : d = r
      · subst hr
        simp [hd, lookupA_insertOv_self]
      · simp [hd, hr, lookupA_insertOv_ne m r d a hr]

theorem containsKey_extendWith (reqs : List String) (m : List (String × String)) (a d : String) :
    containsKey (extendWith m reqs a) d = (containsKey m d || decide (d ∈ reqs)) := by
  induction reqs generalizing m with
  | nil => simp [extendWith]
  | cons r rs ih =>
    rw [extendWith_cons, ih, containsKey_insertOv]
    by_cases hd : d ∈ rs
    · simp [hd, List.mem_cons]
    · by_cases hr : d = r <;> simp [hd, hr, List.mem_cons]

theorem containsKey_extendWith_mono (reqs : List String) (m : List (String × String))
    (a d : String) (h : containsKey m d = true) :
    containsKey (extendWith m reqs a) d = true := by
  rw [containsKey_extendWith]
  simp [h]

theorem containsKey_extendPairs_mono (ps : List (String × String))
    (m : List (String × String)) (d : String) (h : containsKey m d = true) :
    containsKey (extendPairs m ps) d = true := by
  induction ps generalizing m with
  | nil => simpa [extendPairs] using h
  | cons kv rest ih =>
    rw [extendPairs_cons]
    apply ih
    rw [containsKey_insertOv]
    simp [h]

theorem nodup_fst_extendWith (reqs : List String) (m : List (String × String)) (a : String)
    (h : (m.map Prod.fst).Nodup) : ((extendWith m reqs a).map Prod.fst).Nodup := by
  induction reqs generalizing m with
  | nil => simpa [extendWith] using h
  | cons r rs ih =>
    rw [extendWith_cons]
    exact ih _ (nodup_fst_insertOv m r a h)

theorem nodup_fst_extendPairs (ps : List (String × String)) (m : List (String × String))
    (h : (m.map Prod.fst).Nodup) : ((extendPairs m ps).map Prod.fst).Nodup := by
  induction ps generalizing m with
  | nil => simpa [extendPairs] using h
  | cons kv rest ih =>
    rw [extendPairs_cons]
    exact ih _ (nodup_fst_insertOv m kv.1 kv.2 h)

theorem expectStr_append (pre s : List Char) : expectStr pre (pre ++ s) = some s := by
  induction pre with
  | nil => rfl
  | cons c cs ih => simp [expectStr, ih]

theorem skipWs_not_ws (c : Char) (s : List Char) (h : isWsChar c = false) :
    skipWs (c :: s) = c :: s := by
  simp [skipWs, List.dropWhile_cons, h]

theorem expectChar_self (c : Char) (s : List Char) : expectChar c (c :: s) = some s := by
  simp [expectChar]

theorem takeWhile_no_qc (cs rest : List Char) (h : qc ∉ cs) :
    (cs ++ qc :: rest).takeWhile (fun ch => ch != qc) = cs := by
  induction cs with
  | nil => simp [List.takeWhile_cons]
  | cons c cs2 ih =>
    have hc : c ≠ qc := fun hh => h (by simp [hh])
    have hrec := ih (fun hh => h (List.mem_cons_of_mem _ hh))
    simp [List.takeWhile_cons, hc, hrec]

theorem dropWhile_no_qc (cs rest : List Char) (h : qc ∉ cs) :
    (cs ++ qc :: rest).dropWhile (fun ch => ch != qc) = qc :: rest := by
  induction cs with
  | nil => simp [List.dropWhile_cons]
  | cons c cs2 ih =>
    have hc : c ≠ qc := fun hh => h (by simp [hh])
    have hrec := ih (fun hh => h (List.mem_cons_of_mem _ hh))
    simp [List.dropWhile_cons, hc, hrec]

theorem parseQuoted_quoted (s : String) (rest : List Char) (h : qc ∉ s.data) :
    parseQuoted (quoted s rest) = if s.data.isEmpty then none else some rest := by
  unfold quoted parseQuoted
  simp only [if_pos rfl, takeWhile_no_qc s.data rest h, dropWhile_no_qc s.data rest h]
  by_cases he : s.data.isEmpty
  · simp [he]
  · simp [he]

theorem str_ne_empty_iff (s : String) : s ≠ "" ↔ s.data.isEmpty = false := by
  constructor
  · intro h
    cases s with
    | mk l =>
      cases l with
      | nil => exact absurd rfl h
      | cons c cs => rfl
  · intro h hs
    subst hs
    simp at h

theorem str_eq_empty_iff (s : String) : s = "" ↔ s.data.isEmpty = true := by
  constructor
  · intro h
    subst h
    rfl
  · intro h
    cases s with
    | mk l =>
      cases l with
      | nil => rfl
      | cons c cs => simp at h

theorem skipWs_lpar (s : List Char) : skipWs ('(' :: s) = '(' :: s :=
  skipWs_not_ws _ _ (by decide)

theorem skipWs_rpar (s : List Char) : skipWs (')' :: s) = ')' :: s :=
  skipWs_not_ws _ _ (by decide)

theorem skipWs_comma (s : List Char) : skipWs (',' :: s) = ',' :: s :=
  skipWs_not_ws _ _ (by decide)

theorem skipWs_lbk (s : List Char) : skipWs ('[' :: s) = '[' :: s :=
  skipWs_not_ws _ _ (by decide)

theorem skipWs_rbk (s : List Char) : skipWs (']' :: s) = ']' :: s :=
  skipWs_not_ws _ _ (by decide)

theorem skipWs_quoted (s : String) (r : List Char) : skipWs (quoted s r) = quoted s r := by
  unfold quoted
  exact skipWs_not_ws _ _ (by decide)

theorem fodTupleMatch_render (o : DrvOutput) (rest : List Char)
    (h1 : qc ∉ o.name.data) (h2 : qc ∉ o.path.data) (h3 : qc ∉ o.hashAlgo.data)
    (h4 : qc ∉ o.hash.data) :
    fodTupleMatch (renderOutputL o rest) =
      if o.name.data.isEmpty || o.path.data.isEmpty || o.hashAlgo.data.isEmpty ||
          o.hash.data.isEmpty then none
      else some rest := by
  have pq1 : ∀ r, parseQuoted (quoted o.name r) =
      if o.name.data.isEmpty then none else some r :=
    fun r => parseQuoted_quoted o.name r h1
  have pq2 : ∀ r, parseQuoted (quoted o.path r) =
      if o.path.data.isEmpty then none else some r :=
    fun r => parseQuoted_quoted o.path r h2
  have pq3 : ∀ r, parseQuoted (quoted o.hashAlgo r) =
      if o.hashAlgo.data.isEmpty then none else some r :=
    fun r => parseQuoted_quoted o.hashAlgo r h3
  have pq4 : ∀ r, parseQuoted (quoted o.hash r) =
      if o.hash.data.isEmpty then none else some r :=
    fun r => parseQuoted_quoted o.hash r h4
  by_cases e1 : o.name.data.isEmpty <;> by_cases e2 : o.path.data.isEmpty <;>
    by_cases e3 : o.hashAlgo.data.isEmpty <;> by_cases e4 : o.hash.data.isEmpty <;>
    simp [fodTupleMatch, renderOutputL, skipWs_lpar, skipWs_comma, skipWs_rpar,
      skipWs_quoted, expectChar_self, pq1, pq2, pq3, pq4, e1, e2, e3, e4]

theorem isFodText_render : ∀ (d : Drv), headQuoteFree d →
    (isFodText (renderDrv d) = true ↔ headOutputOk d)
  | ⟨[], rest⟩, _ => by
    have hne : (']' : Char) ≠ '(' := by decide
    simp [isFodText, fodMatch, fodTupleMatch, renderDrv, renderOutputsL, headOutputOk,
      expectStr_append, skipWs_lbk, skipWs_rbk, expectChar_self, expectChar, hne]
  | ⟨o :: os, rest⟩, hq => by
    obtain ⟨hq1, hq2, hq3, hq4⟩ := hq
    have hren : renderDrv ⟨o :: os, rest⟩ =
        deriveLit ++ '[' :: renderOutputL o (renderMoreL os (']' :: ',' :: rest.data)) := rfl
    have htup := fodTupleMatch_render o (renderMoreL os (']' :: ',' :: rest.data)) hq1 hq2 hq3 hq4
    have hok : headOutputOk ⟨o :: os, rest⟩ ↔
        (o.name ≠ "" ∧ o.path ≠ "" ∧ o.hashAlgo ≠ "" ∧ o.hash ≠ "") := Iff.rfl
    rw [hok]
    simp only [isFodText, fodMatch, hren, expectStr_append, Option.some_bind, skipWs_lbk,
      expectChar_self, htup, str_ne_empty_iff]
    by_cases e1 : o.name.data.isEmpty <;> by_cases e2 : o.path.data.isEmpty <;>
      by_cases e3 : o.hashAlgo.data.isEmpty <;> by_cases e4 : o.hash.data.isEmpty <;>
      simp [e1, e2, e3, e4, skipWs_lbk, expectChar_self, htup]

theorem countEv_append (e : Ev) (l1 l2 : List Ev) :
    countEv e (l1 ++ l2) = countEv e l1 + countEv e l2 := by
  simp [countEv, List.countP_append]

theorem countEv_cons (e x : Ev) (l : List Ev) :
    countEv e (x :: l) = countEv e l + (if x = e then 1 else 0) := by
  by_cases h : x = e <;> simp [countEv, List.countP_cons, h]

theorem countEv_eq_zero (e : Ev) (l : List Ev) : countEv e l = 0 ↔ e ∉ l := by
  induction l with
  | nil => simp [countEv]
  | cons x rest ih =>
    rw [countEv_cons]
    by_cases h : x = e
    · subst h
      simp
    · have hne : e ≠ x := fun hh => h hh.symm
      simp [h, ih, hne]

theorem gettingReqs_not_mem_release (env : Env) (a d : String) :
    Ev.gettingReqs d ∉ releaseEvents env a := by
  unfold releaseEvents
  by_cases h : env.releaseOk a <;> simp [h]

theorem gettingReqs_not_mem_reinst (env : Env) (d2 a d : String) :
    Ev.gettingReqs d ∉ reinstEvents env d2 a := by
  unfold reinstEvents
  by_cases h : env.drvExists d2
  · simp [h]
  · cases hi : env.instantiate a <;> simp [h, hi]

theorem gettingReqs_not_mem_delete (env : Env) (d2 p d : String) :
    Ev.gettingReqs d ∉ deleteEvents env d2 p := by
  unfold deleteEvents
  by_cases h : env.deleteOk d2 <;> simp [h]

theorem countEv_release_zero (env : Env) (a d : String) :
    countEv (Ev.gettingReqs d) (releaseEvents env a) = 0 :=
  (countEv_eq_zero _ _).mpr (gettingReqs_not_mem_release env a d)

theorem discoverAttr_cases (env : Env) (s : DiscState) (attr : String) (s' : DiscState)
    (h : discoverAttr env s attr = some s') (d : String) :
    (containsKey s.drvs d = true → containsKey s'.drvs d = true) ∧
    ((countEv (Ev.gettingReqs d) s'.events = countEv (Ev.gettingReqs d) s.events) ∨
     (countEv (Ev.gettingReqs d) s'.events = countEv (Ev.gettingReqs d) s.events + 1 ∧
      containsKey s.drvs d = false ∧
      ∃ rs, env.requisites d = some rs ∧ s'.drvs = extendWith s.drvs rs attr)) := by
  unfold discoverAttr at h
  split at h
  · -- instantiate succeeded
    rename_i drv hi
    split at h
    · -- duplicate derivation: requisites not queried
      have hs : s' = ⟨extendWith s.drvs [] attr,
          s.events ++ [Ev.instantiating attr, Ev.ignoringDup drv] ++ releaseEvents env attr⟩ :=
        (Option.some.inj h).symm
      subst hs
      refine ⟨fun hcd => containsKey_extendWith_mono _ _ _ _ hcd, Or.inl ?_⟩
      rw [countEv_append, countEv_append, countEv_release_zero]
      simp [countEv, List.countP_cons]
    · -- fresh derivation: requisites queried
      rename_i hc
      have hcf : containsKey s.drvs drv = false := by
        revert hc
        cases containsKey s.drvs drv <;> simp
      split at h
      · exact absurd h (by simp)
      · rename_i rs hr
        have hs : s' = ⟨extendWith s.drvs rs attr,
            s.events ++ [Ev.instantiating attr, Ev.gettingReqs drv] ++ releaseEvents env attr⟩ :=
          (Option.some.inj h).symm
        subst hs
        refine ⟨fun hcd => containsKey_extendWith_mono _ _ _ _ hcd, ?_⟩
        by_cases hd : drv = d
        · subst hd
          refine Or.inr ⟨?_, hcf, rs, hr, rfl⟩
          rw [countEv_append, countEv_append, countEv_release_zero]
          simp [countEv, List.countP_cons]
        · refine Or.inl ?_
          rw [countEv_append, countEv_append, countEv_release_zero]
          have hne : Ev.gettingReqs drv ≠ Ev.gettingReqs d := by simp [hd]
          simp [countEv, List.countP_cons, hne]
  · -- instantiation failed
    have hs : s' = ⟨extendWith s.drvs [] attr,
        s.events ++ [Ev.instantiating attr, Ev.evalFailed attr] ++ releaseEvents env attr⟩ :=
      (Option.some.inj h).symm
    subst hs
    refine ⟨fun hcd => containsKey_extendWith_mono _ _ _ _ hcd, Or.inl ?_⟩
    rw [countEv_append, countEv_append, countEv_release_zero]
    simp [countEv, List.countP_cons]

theorem discoverAll_mono (env : Env) (attrs : List String) (s s' : DiscState)
    (h : discoverAll env attrs s = some s') (d : String)
    (hc : containsKey s.drvs d = true) : containsKey s'.drvs d = true := by
  induction attrs generalizing s with
  | nil =>
    have : s = s' := Option.some.inj h
    exact this ▸ hc
  | cons a rest ih =>
    unfold discoverAll at h
    cases hstep : discoverAttr env s a with
    | none => rw [hstep] at h; exact absurd h (by simp)
    | some s1 =>
      rw [hstep] at h
      exact ih s1 h ((discoverAttr_cases env s a s1 hstep d).1 hc)

theorem discoverAll_noquery (env : Env) (attrs : List String) (s s' : DiscState)
    (h : discoverAll env attrs s = some s') (d : String)
    (hc : containsKey s.drvs d = true) :
    countEv (Ev.gettingReqs d) s'.events = countEv (Ev.gettingReqs d) s.events := by
  induction attrs generalizing s with
  | nil =>
    have : s = s' := Option.some.inj h
    rw [this]
  | cons a rest ih =>
    unfold discoverAll at h
    cases hstep : discoverAttr env s a with
    | none => rw [hstep] at h; exact absurd h (by simp)
    | some s1 =>
      rw [hstep] at h
      obtain ⟨hmono, hcount⟩ := discoverAttr_cases env s a s1 hstep d
      rcases hcount with heq | ⟨_, hfalse, _⟩
      · rw [ih s1 h (hmono hc), heq]
      · rw [hc] at hfalse
        exact absurd hfalse (by simp)

theorem discoverAll_query_atmost (env : Env)
    (hself : ∀ d2 rs, env.requisites d2 = some rs → d2 ∈ rs)
    (attrs : List String) (d : String) :
    ∀ (s s' : DiscState), discoverAll env attrs s = some s' →
    countEv (Ev.gettingReqs d) s.events ≤ 1 →
    (countEv (Ev.gettingReqs d) s.events = 1 → containsKey s.drvs d = true) →
    countEv (Ev.gettingReqs d) s'.events ≤ 1 := by
  induction attrs with
  | nil =>
    intro s s' h h1 _
    have : s = s' := Option.some.inj h
    exact this ▸ h1
  | cons a rest ih =>
    intro s s' h h1 h2
    unfold discoverAll at h
    cases hstep : discoverAttr env s a with
    | none => rw [hstep] at h; exact absurd h (by simp)
    | some s1 =>
      rw [hstep] at h
      obtain ⟨hmono, hcount⟩ := discoverAttr_cases env s a s1 hstep d
      rcases hcount with heq | ⟨hplus, hfalse, rs, hr, hdrvs⟩
      · exact ih s1 s' h (heq ▸ h1) (fun hone => hmono (h2 (heq ▸ hone)))
      · have hzero : countEv (Ev.gettingReqs d) s.events = 0 := by
          rcases Nat.lt_or_ge (countEv (Ev.gettingReqs d) s.events) 1 with hlt | hge
          · omega
          · have hone : countEv (Ev.gettingReqs d) s.events = 1 := by omega
            rw [h2 hone] at hfalse
            exact absurd hfalse (by simp)
        have hs1count : countEv (Ev.gettingReqs d) s1.events = 1 := by omega
        have hs1cont : containsKey s1.drvs d = true := by
          rw [hdrvs, containsKey_extendWith]
          simp [hself d rs hr]
        exact ih s1 s' h (by omega) (fun _ => hs1cont)

theorem verifyStep_events (env : Env) (s : VerState) (e : String × String) :
    ∃ t, (verifyStep env s e).events = s.events ++ t ∧ ∀ d, Ev.gettingReqs d ∉ t := by
  unfold verifyStep
  cases hf : is_fod env e.1 with
  | none =>
    refine ⟨reinstEvents env e.1 e.2 ++ [Ev.fodCheckFailed e.1], by simp, ?_⟩
    intro d hd
    rcases List.mem_append.mp hd with hd | hd
    · exact gettingReqs_not_mem_reinst env e.1 e.2 d hd
    · simp at hd
  | some b =>
    cases b with
    | false =>
      refine ⟨reinstEvents env e.1 e.2, by simp, ?_⟩
      exact fun d hd => gettingReqs_not_mem_reinst env e.1 e.2 d hd
    | true =>
      cases hrl : env.realise e.1 with
      | some path =>
        refine ⟨reinstEvents env e.1 e.2 ++ [Ev.realising e.1] ++ releaseEvents env e.2 ++
          deleteEvents env e.1 path, by simp, ?_⟩
        intro d hd
        rcases List.mem_append.mp hd with hd | hd
        · rcases List.mem_append.mp hd with hd | hd
          · rcases List.mem_append.mp hd with hd | hd
            · exact gettingReqs_not_mem_reinst env e.1 e.2 d hd
            · simp at hd
          · exact gettingReqs_not_mem_release env e.2 d hd
        · exact gettingReqs_not_mem_delete env e.1 path d hd
      | none =>
        refine ⟨reinstEvents env e.1 e.2 ++ [Ev.realising e.1] ++ [Ev.realiseFailed e.2 e.1],
          by simp, ?_⟩
        intro d hd
        rcases List.mem_append.mp hd with hd | hd
        · rcases List.mem_append.mp hd with hd | hd
          · exact gettingReqs_not_mem_reinst env e.1 e.2 d hd
          · simp at hd
        · simp at hd

theorem verifyAll_countQ (env : Env) (entries : List (String × String)) (s : VerState)
    (d : String) :
    countEv (Ev.gettingReqs d) (verifyAll env entries s).events =
      countEv (Ev.gettingReqs d) s.events := by
  induction entries generalizing s with
  | nil => rfl
  | cons e rest ih =>
    rw [show verifyAll env (e :: rest) s = verifyAll env rest (verifyStep env s e) from rfl, ih]
    obtain ⟨t, ht, hnm⟩ := verifyStep_events env s e
    rw [ht, countEv_append, (countEv_eq_zero _ _).mpr (hnm d)]
    omega

theorem insertOv_eq_append {κ ν : Type} [DecidableEq κ] (m : List (κ × ν)) (k : κ) (v : ν)
    (h : ∀ p ∈ m, p.1 ≠ k) : insertOv m k v = m ++ [(k, v)] := by
  induction m with
  | nil => rfl
  | cons p rest ih =>
    have hp : p.1 ≠ k := h p (by simp)
    simp [insertOv, hp, ih (fun q hq => h q (List.mem_cons_of_mem _ hq))]

theorem verifyStep_fods_cases (env : Env) (s : VerState) (e : String × String) :
    ((verifyStep env s e).fods = s.fods ∧
      (is_fod env e.1 ≠ some true ∨ env.realise e.1 = none)) ∨
    ((verifyStep env s e).fods = insertOv s.fods (e.2, e.1) (env.check e.1) ∧
      is_fod env e.1 = some true ∧ ∃ path, env.realise e.1 = some path) := by
  cases hf : is_fod env e.1 with
  | none => exact Or.inl ⟨by simp [verifyStep, hf], Or.inl (by simp)⟩
  | some b =>
    cases b with
    | false => exact Or.inl ⟨by simp [verifyStep, hf], Or.inl (by simp)⟩
    | true =>
      cases hr : env.realise e.1 with
      | none => exact Or.inl ⟨by simp [verifyStep, hf, hr], Or.inr rfl⟩
      | some path => exact Or.inr ⟨by simp [verifyStep, hf, hr], rfl, path, rfl⟩

theorem verifyAll_fods_spec (env : Env) (entries : List (String × String)) :
    ∀ (s : VerState),
    (entries.map Prod.fst).Nodup →
    (∀ x ∈ s.fods, x.1.2 ∉ entries.map Prod.fst) →
    ((s.fods.map fun x => x.1.2).Nodup) →
    (((verifyAll env entries s).fods.map fun x => x.1.2).Nodup) ∧
    (∀ x ∈ s.fods, x ∈ (verifyAll env entries s).fods) ∧
    (∀ d a, (d, a) ∈ entries → is_fod env d = some true →
      (∃ path, env.realise d = some path) →
      ((a, d), env.check d) ∈ (verifyAll env entries s).fods) ∧
    (∀ x ∈ (verifyAll env entries s).fods, x ∈ s.fods ∨
      (is_fod env x.1.2 = some true ∧ (∃ path, env.realise x.1.2 = some path) ∧
       x.2 = env.check x.1.2 ∧ (x.1.2, x.1.1) ∈ entries)) := by
  induction entries with
  | nil =>
    intro s _ _ hnd
    exact ⟨hnd, fun x hx => hx, by simp, fun x hx => Or.inl hx⟩
  | cons e rest ih =>
    intro s hnd hdisj hfnd
    have hrw : verifyAll env (e :: rest) s = verifyAll env rest (verifyStep env s e) := rfl
    have hnd2 : (rest.map Prod.fst).Nodup := (List.nodup_cons.mp (by simpa using hnd)).2
    have hhead : e.1 ∉ rest.map Prod.fst := (List.nodup_cons.mp (by simpa using hnd)).1
    rcases verifyStep_fods_cases env s e with ⟨hsame, hwhy⟩ | ⟨hins, hif, path, hreal⟩
    · -- no FodResult recorded for this entry
      have hdisj2 : ∀ x ∈ (verifyStep env s e).fods, x.1.2 ∉ rest.map Prod.fst := by
        intro x hx
        rw [hsame] at hx
        have := hdisj x hx
        simp only [List.map_cons, List.mem_cons, not_or] at this
        exact this.2
      have hfnd2 : (((verifyStep env s e).fods.map fun x => x.1.2).Nodup) := by
        rw [hsame]; exact hfnd
      obtain ⟨c1, c2, c3, c4⟩ := ih (verifyStep env s e) hnd2 hdisj2 hfnd2
      rw [hrw]
      refine ⟨c1, ?_, ?_, ?_⟩
      · intro x hx
        exact c2 x (by rw [hsame]; exact hx)
      · intro d a hmem hfod hrl
        rcases List.mem_cons.mp hmem with hmem | hmem
        · -- this entry: contradicts the skip conditions
          have hd1 : e.1 = d := (congrArg Prod.fst hmem).symm
          rcases hwhy with hw | hw
          · exact absurd (hd1 ▸ hfod) hw
          · rcases hrl with ⟨q, hq⟩
            rw [← hd1] at hq
            rw [hw] at hq
            exact absurd hq (by simp)
        · exact c3 d a hmem hfod hrl
      · intro x hx
        rcases c4 x hx with hx2 | hx2
        · rw [hsame] at hx2
          exact Or.inl hx2
        · exact Or.inr ⟨hx2.1, hx2.2.1, hx2.2.2.1, List.mem_cons_of_mem _ hx2.2.2.2⟩
    · -- a FodResult is recorded for this entry
      have hkeys : ∀ x ∈ s.fods, x.1 ≠ (e.2, e.1) := by
        intro x hx hkey
        have := hdisj x hx
        simp only [List.map_cons, List.mem_cons, not_or] at this
        exact this.1 (by rw [hkey])
      have happ : insertOv s.fods (e.2, e.1) (env.check e.1) =
          s.fods ++ [((e.2, e.1), env.check e.1)] := insertOv_eq_append _ _ _ hkeys
      have hproj : e.1 ∉ s.fods.map fun x => x.1.2 := by
        intro hmem
        simp only [List.mem_map] at hmem
        rcases hmem with ⟨x, hx, hpx⟩
        have := hdisj x hx
        simp only [List.map_cons, List.mem_cons, not_or] at this
        exact this.1 hpx
      have hdisj2 : ∀ x ∈ (verifyStep env s e).fods, x.1.2 ∉ rest.map Prod.fst := by
        intro x hx
        rw [hins, happ] at hx
        rcases List.mem_append.mp hx with hx | hx
        · have := hdisj x hx
          simp only [List.map_cons, List.mem_cons, not_or] at this
          exact this.2
        · simp only [List.mem_singleton] at hx
          rw [hx]
          exact hhead
      have hfnd2 : (((verifyStep env s e).fods.map fun x => x.1.2).Nodup) := by
        rw [hins, happ]
        simp only [List.map_append]
        refine List.Nodup.append hfnd (by simp) ?_
        intro z hz hz2
        simp only [List.map_cons, List.map_nil, List.mem_singleton] at hz2
        rw [hz2] at hz
        exact hproj hz
      obtain ⟨c1, c2, c3, c4⟩ := ih (verifyStep env s e) hnd2 hdisj2 hfnd2
      rw [hrw]
      refine ⟨c1, ?_, ?_, ?_⟩
      · intro x hx
        refine c2 x ?_
        rw [hins]
        exact mem_insertOv_of_ne _ _ hx (hkeys x hx)
      · intro d a hmem hfod hrl
        rcases List.mem_cons.mp hmem with hmem | hmem
        · have hd1 : d = e.1 := congrArg Prod.fst hmem
          have ha1 : a = e.2 := congrArg Prod.snd hmem
          subst hd1
          subst ha1
          refine c2 _ ?_
          rw [hins]
          exact mem_insertOv_self _ _ _
        · exact c3 d a hmem hfod hrl
      · intro x hx
        rcases c4 x hx with hx2 | hx2
        · rw [hins] at hx2
          rcases mem_insertOv_elim hx2 with hx3 | hx3
          · exact Or.inl hx3
          · refine Or.inr ?_
            rw [hx3]
            exact ⟨hif, ⟨path, hreal⟩, rfl, by simp⟩
        · exact Or.inr ⟨hx2.1, hx2.2.1, hx2.2.2.1, List.mem_cons_of_mem _ hx2.2.2.2⟩

theorem discoverAttr_drvs (env : Env) (s : DiscState) (attr : String) (s' : DiscState)
    (h : discoverAttr env s attr = some s') :
    ∃ reqs, s'.drvs = extendWith s.drvs reqs attr := by
  unfold discoverAttr at h
  split at h
  · split at h
    · exact ⟨[], by rw [← Option.some.inj h]⟩
    · split at h
      · exact absurd h (by simp)
      · rename_i rs _
        exact ⟨rs, by rw [← Option.some.inj h]⟩
  · exact ⟨[], by rw [← Option.some.inj h]⟩

theorem discoverAll_nodup (env : Env) (attrs : List String) :
    ∀ (s s' : DiscState), discoverAll env attrs s = some s' →
    (s.drvs.map Prod.fst).Nodup → (s'.drvs.map Prod.fst).Nodup := by
  induction attrs with
  | nil =>
    intro s s' h hn
    rw [← Option.some.inj h]
    exact hn
  | cons a rest ih =>
    intro s s' h hn
    unfold discoverAll at h
    cases hstep : discoverAttr env s a with
    | none => rw [hstep] at h; exact absurd h (by simp)
    | some s1 =>
      rw [hstep] at h
      obtain ⟨reqs, hreqs⟩ := discoverAttr_drvs env s a s1 hstep
      exact ih s1 s' h (hreqs ▸ nodup_fst_extendWith reqs s.drvs a hn)

theorem checkRest_ok_elim (env : Env) (p : String) (drvs0 : List (String × String)) (out : RunOut)
    (h : checkRest env p drvs0 = RunResult.ok out) :
    ∃ attrs s,
      env.attrsResult = some attrs ∧
      discoverAll env attrs ⟨drvs0, [Ev.generating p]⟩ = some s ∧
      out.drvs = s.drvs ∧
      out.fods = (verifyAll env s.drvs ⟨[], s.events⟩).fods ∧
      out.events = (verifyAll env s.drvs ⟨[], s.events⟩).events ∧
      out.cacheWritten = (if env.cacheVar ≠ "" then some s.drvs else none) := by
  unfold checkRest at h
  split at h
  · exact absurd h (by simp)
  · rename_i attrs hattrs
    split at h
    · exact absurd h (by simp)
    · rename_i s hdisc
      split at h
      · exact absurd h (by simp)
      · have hout := RunResult.ok.inj h
        exact ⟨attrs, s, hattrs, hdisc, by rw [← hout], by rw [← hout], by rw [← hout],
          by rw [← hout]⟩

theorem checkRest_fatal_elim (env : Env) (p : String) (drvs0 : List (String × String))
    (e : FatalErr) (evs : List Ev) (h : checkRest env p drvs0 = RunResult.fatal e evs) :
    (e = FatalErr.enumerateErr ∧ evs = [Ev.generating p] ∧ env.attrsResult = none) ∨
    e = FatalErr.cacheStoreErr := by
  unfold checkRest at h
  split at h
  · rename_i hattrs
    have he := RunResult.fatal.inj h
    exact Or.inl ⟨he.1.symm, he.2.symm, hattrs⟩
  · split at h
    · exact absurd h (by simp)
    · split at h
      · exact Or.inr (RunResult.fatal.inj h).1.symm
      · exact absurd h (by simp)

theorem check_all_fods_ok_elim (env : Env) (p : String) (out : RunOut)
    (h : check_all_fods env p = RunResult.ok out) :
    ∃ drvs0 attrs s,
      env.attrsResult = some attrs ∧
      discoverAll env attrs ⟨drvs0, [Ev.generating p]⟩ = some s ∧
      out.drvs = s.drvs ∧
      out.fods = (verifyAll env s.drvs ⟨[], s.events⟩).fods ∧
      out.events = (verifyAll env s.drvs ⟨[], s.events⟩).events ∧
      out.cacheWritten = (if env.cacheVar ≠ "" then some s.drvs else none) ∧
      (drvs0.map Prod.fst).Nodup ∧
      (env.cacheVar ≠ "" ∧ env.cacheFileExists = true →
        ∃ pre, env.cacheLoad = some pre ∧ drvs0 = extendPairs [] pre) := by
  unfold check_all_fods at h
  split at h
  · rename_i hcache
    split at h
    · exact absurd h (by simp)
    · rename_i pre hload
      obtain ⟨attrs, s, h1, h2, h3, h4, h5, h6⟩ := checkRest_ok_elim env p _ out h
      exact ⟨extendPairs [] pre, attrs, s, h1, h2, h3, h4, h5, h6,
        nodup_fst_extendPairs pre [] (by simp), fun _ => ⟨pre, hload, rfl⟩⟩
  · rename_i hcache
    obtain ⟨attrs, s, h1, h2, h3, h4, h5, h6⟩ := checkRest_ok_elim env p _ out h
    exact ⟨[], attrs, s, h1, h2, h3, h4, h5, h6, by simp, fun hc => absurd hc hcache⟩

theorem check_all_fods_fatal_elim (env : Env) (p : String) (e : FatalErr) (evs : List Ev)
    (h : check_all_fods env p = RunResult.fatal e evs) :
    e = FatalErr.cacheLoadErr ∨ e = FatalErr.enumerateErr ∨ e = FatalErr.cacheStoreErr := by
  unfold check_all_fods at h
  split at h
  · split at h
    · exact Or.inl (RunResult.fatal.inj h).1.symm
    · rcases checkRest_fatal_elim env p _ e evs h with ⟨he, _, _⟩ | he
      · exact Or.inr (Or.inl he)
      · exact Or.inr (Or.inr he)
  · rcases checkRest_fatal_elim env p _ e evs h with ⟨he, _, _⟩ | he
    · exact Or.inr (Or.inl he)
    · exact Or.inr (Or.inr he)

theorem check_all_fods_enum_fatal (env : Env) (p : String)
    (hc : ¬(env.cacheVar ≠ "" ∧ env.cacheFileExists = true ∧ env.cacheLoad = none))
    (ha : env.attrsResult = none) :
    check_all_fods env p = RunResult.fatal FatalErr.enumerateErr [Ev.generating p] := by
  unfold check_all_fods
  split
  · rename_i hcache
    cases hload : env.cacheLoad with
    | none => exact absurd ⟨hcache.1, hcache.2, hload⟩ hc
    | some pre =>
      simp only [hload]
      unfold checkRest
      rw [ha]
  · unfold checkRest
    rw [ha]

theorem run_fods_spec (env : Env) (p : String) (out : RunOut)
    (h : check_all_fods env p = RunResult.ok out) :
    (out.drvs.map Prod.fst).Nodup ∧
    ((out.fods.map fun x => x.1.2).Nodup) ∧
    (∀ d a, (d, a) ∈ out.drvs → is_fod env d = some true →
      (∃ path, env.realise d = some path) → ((a, d), env.check d) ∈ out.fods) ∧
    (∀ x ∈ out.fods, is_fod env x.1.2 = some true ∧
      (∃ path, env.realise x.1.2 = some path) ∧ x.2 = env.check x.1.2 ∧
      (x.1.2, x.1.1) ∈ out.drvs) := by
  obtain ⟨drvs0, attrs, s, _, hdisc, hdrvs, hfods, _, _, hnd0, _⟩ :=
    check_all_fods_ok_elim env p out h
  have hnds : (s.drvs.map Prod.fst).Nodup := discoverAll_nodup env attrs _ s hdisc hnd0
  obtain ⟨c1, _, c3, c4⟩ :=
    verifyAll_fods_spec env s.drvs ⟨[], s.events⟩ hnds (by simp) (by simp)
  rw [hdrvs, hfods]
  refine ⟨hnds, c1, c3, ?_⟩
  intro x hx
  rcases c4 x hx with hx2 | hx2
  · simp at hx2
  · exact hx2

theorem countEv_nil (e : Ev) : countEv e [] = 0 := rfl

theorem countEv_single (e y : Ev) : countEv e [y] = if y = e then 1 else 0 := by
  rw [countEv_cons, countEv_nil]
  omega

theorem reportEvents_cons (x : (String × String) × Bool) (rest : List ((String × String) × Bool)) :
    reportEvents (x :: rest) =
      (if x.2 then [] else [Ev.report x.1.1 x.1.2]) ++ reportEvents rest := by
  by_cases h : x.2 <;> simp [reportEvents, List.filterMap_cons, h]

theorem report_ne_of_key_ne {x : (String × String) × Bool} {a d : String}
    (hx : x.1 ≠ (a, d)) : Ev.report x.1.1 x.1.2 ≠ Ev.report a d := by
  intro hh
  simp only [Ev.report.injEq] at hh
  exact hx (Prod.ext hh.1 hh.2)

theorem countEv_report_zero (fods : List ((String × String) × Bool)) (a d : String)
    (h : ∀ y ∈ fods, y.1 ≠ (a, d)) :
    countEv (Ev.report a d) (reportEvents fods) = 0 := by
  induction fods with
  | nil => simp [reportEvents, countEv]
  | cons x rest ih =>
    rw [reportEvents_cons, countEv_append]
    have hx : x.1 ≠ (a, d) := h x (by simp)
    have hrest := ih (fun y hy => h y (List.mem_cons_of_mem _ hy))
    by_cases hb : x.2
    · rw [if_pos hb, countEv_nil, hrest]
    · rw [if_neg hb, countEv_single, if_neg (report_ne_of_key_ne hx), hrest]

theorem countEv_report_one (fods : List ((String × String) × Bool)) (a d : String)
    (hnd : (fods.map Prod.fst).Nodup) (hm : ((a, d), false) ∈ fods) :
    countEv (Ev.report a d) (reportEvents fods) = 1 := by
  induction fods with
  | nil => simp at hm
  | cons x rest ih =>
    rw [reportEvents_cons, countEv_append]
    have hnd2 : (rest.map Prod.fst).Nodup := (List.nodup_cons.mp (by simpa using hnd)).2
    have hx1 : x.1 ∉ rest.map Prod.fst := (List.nodup_cons.mp (by simpa using hnd)).1
    rcases List.mem_cons.mp hm with hm1 | hm2
    · have hx : x = ((a, d), false) := hm1.symm
      subst hx
      have hz : countEv (Ev.report a d) (reportEvents rest) = 0 := by
        apply countEv_report_zero
        intro y hy hkey
        have hmem : y.1 ∈ rest.map Prod.fst := List.mem_map_of_mem Prod.fst hy
        rw [hkey] at hmem
        exact hx1 hmem
      rw [hz]
      have hb : (((a, d), false) : (String × String) × Bool).2 = false := rfl
      simp [hb, countEv_single]
    · have hxne : x.1 ≠ (a, d) := by
        intro hh
        apply hx1
        rw [hh]
        exact List.mem_map_of_mem Prod.fst hm2
      rw [ih hnd2 hm2]
      by_cases hb : x.2
      · rw [if_pos hb, countEv_nil]
      · rw [if_neg hb, countEv_single, if_neg (report_ne_of_key_ne hxne)]

theorem countEv_report_true (fods : List ((String × String) × Bool)) (a d : String)
    (hnd : (fods.map Prod.fst).Nodup) (hm : ((a, d), true) ∈ fods) :
    countEv (Ev.report a d) (reportEvents fods) = 0 := by
  induction fods with
  | nil => simp at hm
  | cons x rest ih =>
    rw [reportEvents_cons, countEv_append]
    have hnd2 : (rest.map Prod.fst).Nodup := (List.nodup_cons.mp (by simpa using hnd)).2
    have hx1 : x.1 ∉ rest.map Prod.fst := (List.nodup_cons.mp (by simpa using hnd)).1
    rcases List.mem_cons.mp hm with hm1 | hm2
    · have hx : x = ((a, d), true) := hm1.symm
      subst hx
      have hz : countEv (Ev.report a d) (reportEvents rest) = 0 := by
        apply countEv_report_zero
        intro y hy hkey
        have hmem : y.1 ∈ rest.map Prod.fst := List.mem_map_of_mem Prod.fst hy
        rw [hkey] at hmem
        exact hx1 hmem
      rw [hz]
      have hb : (((a, d), true) : (String × String) × Bool).2 = true := rfl
      simp [hb, countEv_nil]
    · have hxne : x.1 ≠ (a, d) := by
        intro hh
        apply hx1
        rw [hh]
        exact List.mem_map_of_mem Prod.fst hm2
      rw [ih hnd2 hm2]
      by_cases hb : x.2
      · rw [if_pos hb, countEv_nil]
      · rw [if_neg hb, countEv_single, if_neg (report_ne_of_key_ne hxne)]

theorem check_all_fods_nocache (env : Env) (p : String) (hcv : env.cacheVar = "") :
    check_all_fods env p = checkRest env p [] := by
  unfold check_all_fods
  rw [if_neg (by simp [hcv])]

theorem checkRest_panic (env : Env) (p : String) (drvs0 : List (String × String))
    (attrs : List String) (ha : env.attrsResult = some attrs)
    (hd : discoverAll env attrs ⟨drvs0, [Ev.generating p]⟩ = none) :
    checkRest env p drvs0 = RunResult.panicked := by
  unfold checkRest
  split
  · rename_i h0
    rw [h0] at ha
    exact absurd ha (by simp)
  · rename_i attrs2 h0
    have heq : attrs2 = attrs := by
      rw [h0] at ha
      exact Option.some.inj ha
    subst heq
    split
    · rfl
    · rename_i s hs
      rw [hd] at hs
      exact absurd hs (by simp)

theorem discoverAll_cons_panic (env : Env) (a : String) (rest : List String) (s : DiscState)
    (h : discoverAttr env s a = none) : discoverAll env (a :: rest) s = none := by
  unfold discoverAll
  split
  · rfl
  · rename_i s1 hs1
    rw [h] at hs1
    exact absurd hs1 (by simp)

/-- C1: the claim says a registration for a DerivationRef already present in
the store is a no-op keeping the originally recorded owner (first-writer-
wins).  Counterexample: attributes a and b share the requisite d; after a is
processed the store records d as owned by a, but after b is processed the
extend call has overwritten the record to b — the original owner is not
kept. -/
theorem C1_cex :
    discDrvsOf (discoverAll env1 ["a"] ⟨[], []⟩) "d" = some "a" ∧
    discDrvsOf (discoverAll env1 ["a", "b"] ⟨[], []⟩) "d" = some "b" ∧
    (some "b" : Option String) ≠ some "a" := by
  refine ⟨by decide, by decide, by decide⟩

/-- C1 amended: registration merges via HashMap::extend, which overwrites an
existing record (last-writer-wins): after merging the requisite list of an
attribute, every requisite in it is owned by that attribute.  Deduplication
only gates the requisites query, keyed by the attribute's top derivation: in
any completed serialized run, as long as every requisites answer contains
the queried derivation itself, each derivation's requisites are queried at
most once. -/
theorem C1_amended_thm (env : Env) (p : String) (out : RunOut) (d : String)
    (hself : ∀ d2 rs, env.requisites d2 = some rs → d2 ∈ rs)
    (h : check_all_fods env p = RunResult.ok out) :
    countEv (Ev.gettingReqs d) out.events ≤ 1 ∧
    (∀ (m : List (String × String)) (reqs : List String) (a : String),
      d ∈ reqs → lookupA (extendWith m reqs a) d = some a) := by
  constructor
  · obtain ⟨drvs0, attrs, s, _, hdisc, _, _, hevents, _, _, _⟩ :=
      check_all_fods_ok_elim env p out h
    rw [hevents, verifyAll_countQ]
    show countEv (Ev.gettingReqs d) s.events ≤ 1
    refine discoverAll_query_atmost env hself attrs d ⟨drvs0, [Ev.generating p]⟩ s hdisc ?_ ?_
    · rw [countEv_single]
      simp
    · intro h1
      rw [countEv_single] at h1
      simp at h1
  · intro m reqs a hd
    rw [lookupA_extendWith]
    simp [hd]

/-- C1 witness: the amended theorem applied to the baseline completed run. -/
theorem C1_witness : countEv (Ev.gettingReqs "x") (outEmpty "t").events ≤ 1 :=
  (C1_amended_thm baseEnv "t" (outEmpty "t") "x"
    (fun d2 rs hrs => by simp [baseEnv] at hrs) (by decide)).1

/-- C2: the claim says a requisite-query failure is non-fatal, logged and
skipped.  Counterexample: in env2 every requisites query fails; the run
panics on the first attribute (the .expect in the discovery loop) and main
produces no completed outcome at all — the remaining attribute b is never
processed or reported. -/
theorem C2_cex :
    check_all_fods env2 "p" = RunResult.panicked ∧
    main_run ["prog", "p"] env2 = none := by
  refine ⟨by decide, by decide⟩

/-- C2 amended: a requisite-query failure during discovery hits the .expect
and aborts the whole run (the strict variant); it is a per-attribute
instantiation failure that is non-fatal — logged to standard error, the
attribute contributes no derivations, and the loop continues. -/
theorem C2_amended_thm :
    (∀ (env : Env) (p attr : String) (rest : List String) (d : String),
      env.cacheVar = "" → env.attrsResult = some (attr :: rest) →
      env.instantiate attr = some d → env.requisites d = none →
      check_all_fods env p = RunResult.panicked) ∧
    (∀ (env : Env) (s : DiscState) (attr : String),
      env.instantiate attr = none →
      discoverAttr env s attr = some ⟨s.drvs,
        s.events ++ [Ev.instantiating attr, Ev.evalFailed attr] ++ releaseEvents env attr⟩ ∧
      renderEv (Ev.evalFailed attr) =
        some (Chan.stderr, "Evaluation for " ++ attr ++ " failed")) := by
  constructor
  · intro env p attr rest d hcv ha hi hr
    have hstep : discoverAttr env ⟨[], [Ev.generating p]⟩ attr = none := by
      simp [discoverAttr, hi, hr, containsKey]
    rw [check_all_fods_nocache env p hcv]
    exact checkRest_panic env p [] (attr :: rest) ha
      (discoverAll_cons_panic env attr rest _ hstep)
  · intro env s attr hi
    exact ⟨by simp [discoverAttr, hi, extendWith], rfl⟩

/-- C2 witness: the amended theorem's abort branch applied to env2. -/
theorem C2_witness : check_all_fods env2 "w" = RunResult.panicked :=
  C2_amended_thm.1 env2 "w" "a" ["b"] "da" (by decide) (by decide) (by decide) (by decide)

/-- C3: the claim says every pre-seeded cache entry is still present,
unchanged, in the cache written at the end of discovery.  Counterexample:
the cache pre-seeds d as owned by a; attribute b rediscovers d as a
requisite, and the written cache maps d to b — the key survives but the
recorded owner changed. -/
theorem C3_cex :
    env3.cacheLoad = some [("d", "a")] ∧
    lookupA [("d", "a")] "d" = some "a" ∧
    cacheLookup (check_all_fods env3 "p") "d" = some "b" ∧
    (some "b" : Option String) ≠ some "a" := by
  refine ⟨by decide, by decide, by decide, by decide⟩

/-- C3 amended: when the cache variable names an existing file, its pairs
pre-seed the derivation map; during a completed run no requisites query is
ever issued for a derivation already in the pre-seeded map, and the cache
written back at the end of discovery still contains every pre-seeded
derivation key — but the recorded owning attribute of a pre-seeded entry
may be overwritten when the derivation is rediscovered as a requisite. -/
theorem C3_amended_thm (env : Env) (p : String) (out : RunOut) (d : String)
    (pre : List (String × String))
    (hcv : env.cacheVar ≠ "") (hex : env.cacheFileExists = true)
    (hload : env.cacheLoad = some pre)
    (hpre : containsKey (extendPairs [] pre) d = true)
    (h : check_all_fods env p = RunResult.ok out) :
    Ev.gettingReqs d ∉ out.events ∧
    ∃ cw, out.cacheWritten = some cw ∧ containsKey cw d = true := by
  obtain ⟨drvs0, attrs, s, _, hdisc, _, _, hevents, hcw, _, hcache⟩ :=
    check_all_fods_ok_elim env p out h
  obtain ⟨pre2, hload2, hdrvs0⟩ := hcache ⟨hcv, hex⟩
  have hpre2 : pre2 = pre := Option.some.inj (hload2.symm.trans hload)
  subst hpre2
  have hc0 : containsKey drvs0 d = true := by rw [hdrvs0]; exact hpre
  constructor
  · rw [hevents, ← countEv_eq_zero, verifyAll_countQ]
    show countEv (Ev.gettingReqs d) s.events = 0
    rw [discoverAll_noquery env attrs _ s hdisc d hc0]
    show countEv (Ev.gettingReqs d) [Ev.generating p] = 0
    rw [countEv_single]
    simp
  · refine ⟨s.drvs, ?_, discoverAll_mono env attrs _ s hdisc d hc0⟩
    rw [hcw, if_pos hcv]

/-- C3 witness: the amended theorem applied to env3 and its completed
output out3. -/
theorem C3_witness :
    Ev.gettingReqs "d" ∉ out3.events ∧
    ∃ cw, out3.cacheWritten = some cw ∧ containsKey cw "d" = true :=
  C3_amended_thm env3 "p" out3 "d" [("d", "a")] (by decide) (by decide) (by decide)
    (by decide) (by decide)

/-- C4: main exits 0 whenever check_all_fods completes, regardless of the
collected FodResults; it exits 1 exactly on the fatal errors, which are
precisely cache read/deserialization failure, attribute-enumeration failure
and cache serialization/write failure; and on enumeration failure the run
prints no report line. -/
theorem C4_thm (env : Env) (argv : List String) (p : String)
    (hargv : argv.get? 1 = some p) :
    (∀ out, check_all_fods env p = RunResult.ok out →
      main_run argv env = some (0, out.events ++ reportEvents out.fods)) ∧
    (∀ e evs, check_all_fods env p = RunResult.fatal e evs →
      main_run argv env = some (1, evs ++ [Ev.fatalErr e]) ∧
      (e = FatalErr.cacheLoadErr ∨ e = FatalErr.enumerateErr ∨ e = FatalErr.cacheStoreErr)) ∧
    (env.attrsResult = none →
      ¬(env.cacheVar ≠ "" ∧ env.cacheFileExists = true ∧ env.cacheLoad = none) →
      main_run argv env = some (1, [Ev.generating p, Ev.fatalErr FatalErr.enumerateErr]) ∧
      ∀ a d, Ev.report a d ∉ [Ev.generating p, Ev.fatalErr FatalErr.enumerateErr]) := by
  have hargv2 : argv[1]? = some p := by simpa using hargv
  refine ⟨?_, ?_, ?_⟩
  · intro out hok
    simp [main_run, hargv2, hok]
  · intro e evs hf
    exact ⟨by simp [main_run, hargv2, hf], check_all_fods_fatal_elim env p e evs hf⟩
  · intro ha hc
    have hf := check_all_fods_enum_fatal env p hc ha
    refine ⟨by simp [main_run, hargv2, hf], ?_⟩
    intro a d
    simp

/-- C4 witness: the exit-1-no-report branch applied to an environment whose
attribute enumeration fails. -/
theorem C4_witness :
    main_run ["prog", "tree"] envEnumFail =
      some (1, [Ev.generating "tree", Ev.fatalErr FatalErr.enumerateErr]) :=
  ((C4_thm envEnumFail ["prog", "tree"] "tree" (by decide)).2.2 (by decide) (by decide)).1

/-- C5: the claim says the classifier returns true iff the derivation
declares exactly one content hash for an output.  Counterexample: dex5
declares exactly one content hash (on its second output), yet the anchored
regex inspects only the first output tuple and classifies it non-FOD. -/
theorem C5_cex :
    countContentHashes dex5 = 1 ∧ isFodText (renderDrv dex5) = false := by
  refine ⟨by decide, by decide⟩

/-- C5 amended: on a derivation whose first output tuple is free of quote
characters, the classifier returns true iff the first listed output has all
four fields non-empty — i.e. the first output declares a hash algorithm and
hash (so any derivation lacking a declared hash on its first output, in
particular one lacking declared hashes entirely, is non-FOD); every
FodResult of a completed run comes from a derivation the classifier
accepted; and a classification failure (unreadable derivation file) records
nothing and logs the corresponding line to standard error. -/
theorem C5_amended_thm :
    (∀ d : Drv, headQuoteFree d → (isFodText (renderDrv d) = true ↔ headOutputOk d)) ∧
    (∀ (env : Env) (p : String) (out : RunOut) (x : (String × String) × Bool),
      check_all_fods env p = RunResult.ok out → x ∈ out.fods →
      is_fod env x.1.2 = some true) ∧
    (∀ (env : Env) (s : VerState) (d a : String), env.drvContents d = none →
      verifyStep env s (d, a) = ⟨s.fods,
        (s.events ++ reinstEvents env d a) ++ [Ev.fodCheckFailed d]⟩ ∧
      renderEv (Ev.fodCheckFailed d) = some (Chan.stderr,
        "Error checking whether derivation at " ++ d ++ " is a FOD, assuming not")) := by
  refine ⟨fun d hq => isFodText_render d hq, ?_, ?_⟩
  · intro env p out x h hx
    exact ((run_fods_spec env p out h).2.2.2 x hx).1
  · intro env s d a hc
    have hif : is_fod env d = none := by simp [is_fod, hc]
    exact ⟨by simp [verifyStep, hif], rfl⟩

/-- C5 witness: the amended classifier contract applied to a classic
single fixed-output derivation. -/
theorem C5_witness : isFodText (renderDrv dex5b) = true :=
  (C5_amended_thm.1 dex5b ⟨by decide, by decide, by decide, by decide⟩).mpr
    ⟨by decide, by decide, by decide, by decide⟩

/-- C6: the claim says the set and order of report lines is a deterministic
function of the set of FodResults.  Counterexample: two completed runs of
the same world whose attributes are enumerated in opposite orders produce
the same set of FodResults but print the report lines in different orders
(the map the report iterates is order-sensitive). -/
theorem C6_cex :
    fodsOf (check_all_fods env6a "p") = [(("a", "da"), false), (("b", "db"), false)] ∧
    fodsOf (check_all_fods env6b "p") = [(("b", "db"), false), (("a", "da"), false)] ∧
    (fodsOf (check_all_fods env6a "p")).Perm (fodsOf (check_all_fods env6b "p")) ∧
    reportEvents (fodsOf (check_all_fods env6a "p")) ≠
      reportEvents (fodsOf (check_all_fods env6b "p")) := by
  refine ⟨by decide, by decide, by decide, by decide⟩

/-- C6 amended: the multiset of report lines is a deterministic function of
the multiset of FodResults: runs that produce the same FodResults up to
order print the same report lines up to order; the order of the lines is
not determined by the set. -/
theorem C6_amended_thm (l1 l2 : List ((String × String) × Bool)) (h : l1.Perm l2) :
    (reportEvents l1).Perm (reportEvents l2) :=
  List.Perm.filterMap _ h

/-- C6 witness: the amended theorem applied to two orderings of the same
two FodResults. -/
theorem C6_witness :
    (reportEvents [(("a", "da"), false), (("b", "db"), false)]).Perm
      (reportEvents [(("b", "db"), false), (("a", "da"), false)]) :=
  C6_amended_thm _ _ (by decide)

/-- C7: for every FOD derivation whose realization succeeds in the
verification phase, after the verify step the verdict is recorded and the
attribute-root release and the derivation-root delete (removing the root
together with its realized output) are both invoked, with no hypothesis on
the verdict itself — regardless of reproducibility. -/
theorem C7_thm (env : Env) (s : VerState) (d a path : String) (t : List Char)
    (hc : env.drvContents d = some t) (hf : isFodText t = true)
    (hr : env.realise d = some path) :
    (verifyStep env s (d, a)).fods = insertOv s.fods (a, d) (env.check d) ∧
    Ev.releaseRoot a ∈ (verifyStep env s (d, a)).events ∧
    Ev.deleteRoot d ∈ (verifyStep env s (d, a)).events := by
  have hif : is_fod env d = some true := by simp [is_fod, hc, hf]
  have hstep : verifyStep env s (d, a) = ⟨insertOv s.fods (a, d) (env.check d),
      ((s.events ++ reinstEvents env d a) ++ [Ev.realising d]) ++ releaseEvents env a ++
        deleteEvents env d path⟩ := by
    simp [verifyStep, hif, hr]
  rw [hstep]
  refine ⟨rfl, ?_, ?_⟩
  · simp [releaseEvents]
  · simp [deleteEvents]

/-- C7 witness: the theorem applied to the concrete FOD derivation da of
env6a. -/
theorem C7_witness :
    (verifyStep env6a ⟨[], []⟩ ("da", "a")).fods =
      insertOv [] ("a", "da") (env6a.check "da") ∧
    Ev.releaseRoot "a" ∈ (verifyStep env6a ⟨[], []⟩ ("da", "a")).events ∧
    Ev.deleteRoot "da" ∈ (verifyStep env6a ⟨[], []⟩ ("da", "a")).events :=
  C7_thm env6a ⟨[], []⟩ "da" "a" "out" fodText1 (by decide) (by decide) (by decide)

/-- C8: a successfully realized FOD is recorded under its (attribute,
derivation) key with the verdict of the verifying second realization (true
iff the rebuilt output is byte-identical); in a FodResult map with no
duplicate keys, a false verdict yields exactly one report line and a true
verdict yields none; and the report line renders on standard output with
the exact documented text. -/
theorem C8_thm (env : Env) (s : VerState) (d a path : String) (t : List Char)
    (hc : env.drvContents d = some t) (hf : isFodText t = true)
    (hr : env.realise d = some path) :
    lookupA ((verifyStep env s (d, a)).fods) (a, d) = some (env.check d) ∧
    (∀ (fods : List ((String × String) × Bool)) (a2 d2 : String),
      (fods.map Prod.fst).Nodup →
      ((((a2, d2), false) ∈ fods →
        countEv (Ev.report a2 d2) (reportEvents fods) = 1) ∧
       (((a2, d2), true) ∈ fods →
        countEv (Ev.report a2 d2) (reportEvents fods) = 0))) ∧
    renderEv (Ev.report a d) =
      some (Chan.stdout, "FOD from " ++ a ++ " at " ++ d ++ " is not reproducible") := by
  have hif : is_fod env d = some true := by simp [is_fod, hc, hf]
  refine ⟨?_, ?_, rfl⟩
  · have hstep : (verifyStep env s (d, a)).fods = insertOv s.fods (a, d) (env.check d) := by
      simp [verifyStep, hif, hr]
    rw [hstep]
    exact lookupA_insertOv_self _ _ _
  · intro fods a2 d2 hnd
    exact ⟨countEv_report_one fods a2 d2 hnd, countEv_report_true fods a2 d2 hnd⟩

/-- C8 witness: the recorded verdict for the concrete FOD derivation da of
env6a equals its verify result. -/
theorem C8_witness :
    lookupA ((verifyStep env6a ⟨[], []⟩ ("da", "a")).fods) ("a", "da") =
      some (env6a.check "da") :=
  (C8_thm env6a ⟨[], []⟩ "da" "a" "out" fodText1 (by decide) (by decide) (by decide)).1

/-- C9: in every completed run no two FodResults share a derivation (the
derivation projection of the FodResult map has no duplicates), and every
derivation of the final map that the classifier accepts and that realizes
successfully has its FodResult present — exactly one per such derivation. -/
theorem C9_thm (env : Env) (p : String) (out : RunOut)
    (h : check_all_fods env p = RunResult.ok out) :
    ((out.fods.map fun x => x.1.2).Nodup) ∧
    (∀ d a path, (d, a) ∈ out.drvs → is_fod env d = some true →
      env.realise d = some path → ((a, d), env.check d) ∈ out.fods) := by
  obtain ⟨_, hnodup, hmem, _⟩ := run_fods_spec env p out h
  exact ⟨hnodup, fun d a path hd hf hr => hmem d a hd hf ⟨path, hr⟩⟩

/-- C9 witness: the theorem applied to the completed run of env6a. -/
theorem C9_witness :
    ((out6a.fods.map fun x => x.1.2).Nodup) ∧
    (("a", "da"), env6a.check "da") ∈ out6a.fods := by
  have h := C9_thm env6a "p" out6a (by decide)
  exact ⟨h.1, h.2 "da" "a" "out" (by decide) (by decide) (by decide)⟩

/-- C10: invoked without a positional argument the program panics on the
out-of-bounds index into the argument vector: the run is aborted — it
neither prints a usage message nor exits with the documented fatal code 1. -/
theorem C10_thm (env : Env) (prog : String) :
    main_run [prog] env = none ∧ ∀ n evs, main_run [prog] env ≠ some (n, evs) := by
  refine ⟨rfl, ?_⟩
  intro n evs h
  rw [show main_run [prog] env = none from rfl] at h
  exact absurd h (by simp)

/-- C10 witness: the theorem applied to a concrete invocation. -/
theorem C10_witness : main_run ["nixpkgs-fod-reports"] baseEnv = none :=
  (C10_thm baseEnv "nixpkgs-fod-reports").1
